import Mathlib

/-!
# fast_stringcase: a shallow embedding of `fast_stringcase.c`

A C string is modelled by the list of its bytes before the terminating NUL
(what `strlen` measures); every byte is a natural number.  An output buffer that
the C code fills through `buf[idx++] = x` is modelled by the list of the bytes
written so far, so that the write index is the length of that list.  Reading
`string[i]` is `string.getD i 0`: the byte at index `i`, the terminator past the
end.  The `<ctype.h>` functions are those of the "C" locale: they act on ASCII
and leave every byte from 128 on alone.
-/

namespace FastStringcase

/-! ## `<ctype.h>` in the "C" locale -/

/-- C library `isupper`: the byte is one of `A`..`Z`. -/
def isupper (c : Nat) : Bool := decide (65 ≤ c ∧ c ≤ 90)

/-- C library `islower`: the byte is one of `a`..`z`. -/
def islower (c : Nat) : Bool := decide (97 ≤ c ∧ c ≤ 122)

/-- C library `isdigit`: the byte is one of `0`..`9`. -/
def isdigit (c : Nat) : Bool := decide (48 ≤ c ∧ c ≤ 57)

/-- C library `isalnum`: a letter or a digit. -/
def isalnum (c : Nat) : Bool := isupper c || islower c || isdigit c

/-- C library `isspace`: space, `\t`, `\n`, `\v`, `\f`, `\r`. -/
def isspace (c : Nat) : Bool := decide (c = 32 ∨ (9 ≤ c ∧ c ≤ 13))

/-- C library `tolower`: `A`..`Z` go to `a`..`z`, every other byte is kept. -/
def tolower (c : Nat) : Nat := if isupper c then c + 32 else c

/-- C library `toupper`: `a`..`z` go to `A`..`Z`, every other byte is kept. -/
def toupper (c : Nat) : Nat := if islower c then c - 32 else c

/-! ## Control flow -/

/-- The loop `for (i = lo; i < lo + n; ++i) st = body i st`: `forLoop body n lo st`. -/
def forLoop {σ : Type} (body : Nat → σ → σ) : Nat → Nat → σ → σ
  | 0, _, st => st
  | n + 1, i, st => forLoop body n (i + 1) (body i st)

/-- The bytes of an ASCII string literal. -/
def ascii (s : String) : List Nat := s.toList.map Char.toNat

/-! ## The transforms, from `fast_stringcase.c` -/

/-- Pass 1 of `snakecase` (lines 104-113): `-`, `.` and space become `_`. -/
def snakecase_pass1 (string : List Nat) (input_len : Nat) : List Nat :=
  forLoop (fun i temp_str =>
    let current_char := string.getD i 0
    if current_char = 45 ∨ current_char = 46 ∨ current_char = 32 then
      temp_str ++ [95]
    else
      temp_str ++ [current_char]) input_len 0 []

/-- Pass 2 of `snakecase` (lines 116-129): the first byte is lowercased, every later
uppercase letter becomes `_` and its lowercase form. -/
def snakecase_pass2 (temp_str : List Nat) (temp_idx : Nat) : List Nat :=
  if temp_idx > 0 then
    forLoop (fun i result_str =>
      let current_char := temp_str.getD i 0
      if isupper current_char then
        result_str ++ [95] ++ [tolower current_char]
      else
        result_str ++ [current_char]) (temp_idx - 1) 1 [tolower (temp_str.getD 0 0)]
  else
    []

/-- The function `snakecase` (lines 86-135). -/
def snakecase (string : List Nat) : List Nat :=
  let input_len := string.length
  if input_len = 0 then []
  else
    let temp_str := snakecase_pass1 string input_len
    let temp_idx := temp_str.length
    snakecase_pass2 temp_str temp_idx

/-- The loop `while (cond st) st = body st`, run for at most `fuel` rounds. -/
def whileLoop {σ : Type} (cond : σ → Bool) (body : σ → σ) : Nat → σ → σ
  | 0, st => st
  | fuel + 1, st => if cond st then whileLoop cond body fuel (body st) else st

/-- The function `camelcase` (lines 140-181); the loop state is the pair of
`result_str` and `capitalize_next`. -/
def camelcase (string : List Nat) : List Nat :=
  let input_len := string.length
  if input_len = 0 then []
  else
    (forLoop (fun i (st : List Nat × Bool) =>
      let result_str := st.1
      let capitalize_next := st.2
      let current_char := string.getD i 0
      if current_char = 45 ∨ current_char = 95 ∨ current_char = 46 ∨ current_char = 32 then
        (result_str, true)
      else if isalnum current_char then
        if result_str.length = 0 then
          (result_str ++ [tolower current_char], capitalize_next)
        else if capitalize_next then
          (result_str ++ [toupper current_char], false)
        else
          (result_str ++ [current_char], capitalize_next)
      else
        (result_str, capitalize_next)) input_len 0 ([], false)).1

/-- The function `capitalcase` (lines 185-207): `toupper` on byte 0, `memcpy` of the rest. -/
def capitalcase (string : List Nat) : List Nat :=
  let input_len := string.length
  if input_len = 0 then []
  else
    [toupper (string.getD 0 0)] ++
      (if input_len > 1 then (string.drop 1).take (input_len - 1) else [])

/-- The function `pascalcase` (lines 211-227): the copy of the `camelcase` result with
byte 0 overwritten by its `toupper` when the copy is not empty. -/
def pascalcase (string : List Nat) : List Nat :=
  let camel_result_c := camelcase string
  let len := camel_result_c.length
  if len > 0 then camel_result_c.set 0 (toupper (camel_result_c.getD 0 0))
  else camel_result_c

/-- The function `titlecase` (lines 368-409); the loop state is the pair of
`result_str` and `capitalize_next`. -/
def titlecase (string : List Nat) : List Nat :=
  let snake_result_c := snakecase string
  let len := snake_result_c.length
  (forLoop (fun i (st : List Nat × Bool) =>
    let result_str := st.1
    let capitalize_next := st.2
    let current_char := snake_result_c.getD i 0
    if current_char = 95 then
      (result_str ++ [32], true)
    else if capitalize_next then
      (result_str ++ [toupper current_char], false)
    else
      (result_str ++ [tolower current_char], capitalize_next)) len 0 ([], true)).1

/-- The loop `while (start < len && isspace(string[start])) start++` of `trimcase` and
`sentencecase`; `len` rounds are enough (`trim_start_exit`). -/
def trim_start (string : List Nat) (len : Nat) (start : Nat) : Nat :=
  whileLoop (fun start => decide (start < len) && isspace (string.getD start 0))
    (fun start => start + 1) len start

/-- The loop `while (end > start && isspace(string[end])) end--` of `trimcase` and
`sentencecase`, entered with `end = len - 1`; `len` rounds are enough (`trim_end_exit`). -/
def trim_end (string : List Nat) (len : Nat) (start : Nat) (end_ : Nat) : Nat :=
  whileLoop (fun end_ => decide (end_ > start) && isspace (string.getD end_ 0))
    (fun end_ => end_ - 1) len end_

/-- The function `trimcase` (lines 413-446). -/
def trimcase (string : List Nat) : List Nat :=
  let len := string.length
  let start := trim_start string len 0
  if start = len then []
  else
    let end_ := trim_end string len start (len - 1)
    let trimmed_len := end_ - start + 1
    (string.drop start).take trimmed_len

/-- Steps 1 and 2 of `sentencecase` (lines 502-520): the contents of `buffer1`. -/
def sentencecase_pass (string : List Nat) (input_len : Nat) : List Nat :=
  forLoop (fun i buffer1 =>
    let current_char := string.getD i 0
    let idx1 := buffer1.length
    if current_char = 45 ∨ current_char = 95 ∨ current_char = 46 ∨ current_char = 32 then
      if idx1 > 0 ∧ buffer1.getD (idx1 - 1) 0 ≠ 32 then buffer1 ++ [32] else buffer1
    else if isupper current_char then
      (if idx1 > 0 ∧ buffer1.getD (idx1 - 1) 0 ≠ 32 then buffer1 ++ [32] else buffer1)
        ++ [tolower current_char]
    else
      buffer1 ++ [tolower current_char]) input_len 0 []

/-- The function `sentencecase` (lines 485-550). -/
def sentencecase (string : List Nat) : List Nat :=
  let input_len := string.length
  if input_len = 0 then []
  else
    let buffer1 := sentencecase_pass string input_len
    let len1 := buffer1.length
    let start := trim_start buffer1 len1 0
    if start = len1 then []
    else
      let end_ := trim_end buffer1 len1 start (len1 - 1)
      let trimmed_len := end_ - start + 1
      let buffer2 := (buffer1.drop start).take trimmed_len
      if trimmed_len > 0 then buffer2.set 0 (toupper (buffer2.getD 0 0)) else buffer2

/-- The function `lowercase` (lines 40-59). -/
def lowercase (string : List Nat) : List Nat :=
  let input_len := string.length
  forLoop (fun i result_str => result_str ++ [tolower (string.getD i 0)]) input_len 0 []

/-- The function `uppercase` (lines 62-81). -/
def uppercase (string : List Nat) : List Nat :=
  let input_len := string.length
  forLoop (fun i result_str => result_str ++ [toupper (string.getD i 0)]) input_len 0 []

/-- Python `str.upper` on the UTF-8 bytes of a string, which `constcase` calls through
`PyObject_CallMethod`.  It applies the full Unicode uppercase mapping, whose table is not
part of the repository; the model holds the rows for U+0000..U+00FF (ASCII letters,
`µ` to U+039C, `ß` to `SS`, `à`..`þ` without `÷` to `À`..`Þ`, `ÿ` to U+0178) and the row
of U+0390, which goes to U+0399 U+0308 U+0301.  Any other byte is kept, so the model is
that of `str.upper` only on strings made of these characters. -/
def py_upper : List Nat → List Nat
  | [] => []
  | 194 :: 181 :: rest => 206 :: 156 :: py_upper rest
  | 195 :: b :: rest =>
    if b = 159 then 83 :: 83 :: py_upper rest
    else if b = 191 then 197 :: 184 :: py_upper rest
    else if 160 ≤ b ∧ b ≤ 190 ∧ b ≠ 183 then 195 :: (b - 32) :: py_upper rest
    else 195 :: py_upper (b :: rest)
  | 206 :: 144 :: rest => 206 :: 153 :: 204 :: 136 :: 204 :: 129 :: py_upper rest
  | c :: rest => toupper c :: py_upper rest

/-- The function `constcase` (lines 231-240): `.upper()` of the `snakecase` result. -/
def constcase (string : List Nat) : List Nat :=
  py_upper (snakecase string)

/-- The function `pathcase` (lines 245-270). -/
def pathcase (string : List Nat) : List Nat :=
  let snake_result_c := snakecase string
  let len := snake_result_c.length
  forLoop (fun i result_str =>
    result_str ++ [if snake_result_c.getD i 0 = 95 then 47 else snake_result_c.getD i 0])
    len 0 []

/-- The function `backslashcase` (lines 274-306); one backslash is written for a `_`. -/
def backslashcase (string : List Nat) : List Nat :=
  let snake_result_c := snakecase string
  let len := snake_result_c.length
  forLoop (fun i result_str =>
    if snake_result_c.getD i 0 = 95 then result_str ++ [92]
    else result_str ++ [snake_result_c.getD i 0]) len 0 []

/-- The function `spinalcase` (lines 310-335). -/
def spinalcase (string : List Nat) : List Nat :=
  let snake_result_c := snakecase string
  let len := snake_result_c.length
  forLoop (fun i result_str =>
    result_str ++ [if snake_result_c.getD i 0 = 95 then 45 else snake_result_c.getD i 0])
    len 0 []

/-- The function `dotcase` (lines 339-364). -/
def dotcase (string : List Nat) : List Nat :=
  let snake_result_c := snakecase string
  let len := snake_result_c.length
  forLoop (fun i result_str =>
    result_str ++ [if snake_result_c.getD i 0 = 95 then 46 else snake_result_c.getD i 0])
    len 0 []

/-- The function `alphanumcase` (lines 450-473). -/
def alphanumcase (string : List Nat) : List Nat :=
  let input_len := string.length
  forLoop (fun i result_str =>
    if isalnum (string.getD i 0) then result_str ++ [string.getD i 0] else result_str)
    input_len 0 []

/-! ## The algorithms as the specification words them -/

/-- Step 1 of the specified `snakecase`: `-`, `.` and space are replaced by `_`. -/
def spec_replace_separator (c : Nat) : Nat :=
  if c = 45 ∨ c = 46 ∨ c = 32 then 95 else c

/-- Step 2 of the specified `snakecase`, for a character after the first: an uppercase
letter is emitted as `_` and its lowercase form, any other character unchanged. -/
def spec_split_hump (c : Nat) : List Nat :=
  if isupper c then [95, tolower c] else [c]

/-- The two-pass `snakecase` of the specification. -/
def snakecase_spec (s : List Nat) : List Nat :=
  match s.map spec_replace_separator with
  | [] => []
  | c :: cs => tolower c :: cs.flatMap spec_split_hump

/-- A byte that `snakecase` never emits: an uppercase letter, `-`, `.` or a space. -/
def snake_clean (c : Nat) : Prop := isupper c = false ∧ c ≠ 45 ∧ c ≠ 46 ∧ c ≠ 32

/-- The separator characters of the specification: `-`, `_`, `.`, space. -/
def spec_is_separator (c : Nat) : Bool := c = 45 || c = 95 || c = 46 || c = 32

/-- The left-to-right scan of the specified `camelcase`: `pending` is the
pending-capitalize flag, `emitted` tells whether a character has been emitted yet. -/
def camelcase_scan : List Nat → Bool → Bool → List Nat
  | [], _, _ => []
  | c :: cs, pending, emitted =>
    if spec_is_separator c then camelcase_scan cs true emitted
    else if isalnum c then
      if !emitted then tolower c :: camelcase_scan cs pending true
      else if pending then toupper c :: camelcase_scan cs false true
      else c :: camelcase_scan cs pending true
    else camelcase_scan cs pending emitted

/-- The `camelcase` of the specification: the scan started with the flag clear and nothing
emitted. -/
def camelcase_spec (s : List Nat) : List Nat := camelcase_scan s false false

/-- The collapse rule of the specified `sentencecase`, read literally: a space is emitted
only if the previously emitted character was not already a space (so also when nothing has
been emitted yet). -/
def spec_space (out : List Nat) : List Nat :=
  if out.getLast? = some 32 then out else out ++ [32]

/-- The collapse rule of the specified `sentencecase`, read strictly: a space is emitted
only if there is a previously emitted character and it is not a space. -/
def spec_space_after (out : List Nat) : List Nat :=
  if out = [] ∨ out.getLast? = some 32 then out else out ++ [32]

/-- One step of the single pass of the specified `sentencecase`, under the collapse rule
`emit`: what has been emitted so far, extended for the character `c`. -/
def sentence_step (emit : List Nat → List Nat) (out : List Nat) (c : Nat) : List Nat :=
  if spec_is_separator c then emit out
  else if isupper c then emit out ++ [tolower c]
  else out ++ [tolower c]

/-- The single pass `p` of the specified `sentencecase`, under the collapse rule `emit`. -/
def sentence_pass_spec (emit : List Nat → List Nat) (s : List Nat) : List Nat :=
  s.foldl (sentence_step emit) []

/-- Two neighbouring bytes that are not both a space. -/
def not_both_space (x y : Nat) : Prop := ¬ (x = 32 ∧ y = 32)

/-- A segment with its first character uppercased and the rest lowercased. -/
def spec_capitalize_segment : List Nat → List Nat
  | [] => []
  | c :: cs => toupper c :: cs.map tolower

/-- The `titlecase` of the specification: `snakecase s` is split on `_`, every segment is
capitalized, and the segments are joined with a single space. -/
def titlecase_spec (s : List Nat) : List Nat :=
  List.intercalate [32] (((snakecase s).splitOn 95).map spec_capitalize_segment)

/-- The `titlecase` loop as a recursion on the bytes still to read; `cap` is
`capitalize_next`. -/
def titlecase_scan : Bool → List Nat → List Nat
  | _, [] => []
  | cap, c :: cs =>
    if c = 95 then 32 :: titlecase_scan true cs
    else if cap then toupper c :: titlecase_scan false cs
    else tolower c :: titlecase_scan cap cs

/-- A byte that the single pass of `sentencecase` can emit: not an uppercase letter and
none of `-`, `_`, `.`. -/
def sentence_clean (c : Nat) : Prop := isupper c = false ∧ c ≠ 45 ∧ c ≠ 95 ∧ c ≠ 46

end FastStringcase

open FastStringcase

/-! ## Loops as folds -/

theorem forLoop_offset {σ : Type} (g : Nat → σ → σ) (pre l : List Nat) (st : σ) :
    forLoop (fun i st => g ((pre ++ l).getD i 0) st) l.length pre.length st
      = l.foldl (fun st c => g c st) st := by
  induction l generalizing pre st with
  | nil => rfl
  | cons c l ih =>
    have h := ih (pre ++ [c]) (g c st)
    simp only [List.append_assoc, List.singleton_append, List.length_append,
      List.length_singleton] at h
    simp only [List.length_cons, forLoop, List.foldl_cons]
    rw [List.getD_append_right _ _ _ _ (Nat.le_refl _)]
    simpa using h

theorem forLoop_eq_foldl {σ : Type} (g : Nat → σ → σ) (l : List Nat) (st : σ) :
    forLoop (fun i st => g (l.getD i 0) st) l.length 0 st
      = l.foldl (fun st c => g c st) st := by
  simpa using forLoop_offset g [] l st

theorem foldl_emit (g : Nat → List Nat) (l acc : List Nat) :
    l.foldl (fun acc c => acc ++ g c) acc = acc ++ l.flatMap g := by
  induction l generalizing acc with
  | nil => simp
  | cons c l ih => simp [ih]

/-! ## `snakecase` -/

theorem snakecase_pass1_eq (s : List Nat) :
    snakecase_pass1 s s.length = s.map spec_replace_separator := by
  unfold snakecase_pass1
  rw [forLoop_eq_foldl (fun c temp_str =>
    if c = 45 ∨ c = 46 ∨ c = 32 then temp_str ++ [95] else temp_str ++ [c]) s []]
  have h : (fun (st : List Nat) (c : Nat) =>
      if c = 45 ∨ c = 46 ∨ c = 32 then st ++ [95] else st ++ [c])
      = fun st c => st ++ [spec_replace_separator c] := by
    funext st c
    unfold spec_replace_separator
    split <;> rfl
  rw [h, foldl_emit]
  induction s with
  | nil => rfl
  | cons c s ih => simpa using ih

theorem snakecase_pass2_eq (c : Nat) (cs : List Nat) :
    snakecase_pass2 (c :: cs) (c :: cs).length = tolower c :: cs.flatMap spec_split_hump := by
  unfold snakecase_pass2
  have h := forLoop_offset (fun c result_str =>
    if isupper c then result_str ++ [95] ++ [tolower c] else result_str ++ [c]) [c] cs
    [tolower c]
  simp only [List.singleton_append, List.length_singleton] at h
  simp only [List.length_cons, Nat.add_sub_cancel, List.getD_cons_zero]
  rw [if_pos (Nat.succ_pos _), h]
  have h2 : (fun (st : List Nat) (c : Nat) =>
      if isupper c then st ++ [95] ++ [tolower c] else st ++ [c])
      = fun st c => st ++ spec_split_hump c := by
    funext st c
    unfold spec_split_hump
    split <;> simp
  rw [h2, foldl_emit]
  rfl

theorem snakecase_eq_spec (s : List Nat) : snakecase s = snakecase_spec s := by
  unfold snakecase snakecase_spec
  cases s with
  | nil => rfl
  | cons a s =>
    simp only [List.length_cons, Nat.add_one_ne_zero, if_false]
    have h1 := snakecase_pass1_eq (a :: s)
    simp only [List.length_cons] at h1
    rw [h1]
    simp only [List.map_cons]
    have h2 := snakecase_pass2_eq (spec_replace_separator a) (s.map spec_replace_separator)
    simpa using h2

theorem tolower_not_upper (c : Nat) : isupper (tolower c) = false := by
  unfold tolower isupper
  split <;> simp_all
  omega

theorem tolower_fix (c : Nat) (h : isupper c = false) : tolower c = c := by
  simp [tolower, h]

theorem snake_clean_tolower (c : Nat) (h : c ≠ 45 ∧ c ≠ 46 ∧ c ≠ 32) :
    snake_clean (tolower c) := by
  refine ⟨tolower_not_upper c, ?_⟩
  unfold tolower isupper
  split <;> simp_all
  omega

theorem spec_replace_separator_ne (c : Nat) :
    spec_replace_separator c ≠ 45 ∧ spec_replace_separator c ≠ 46 ∧
      spec_replace_separator c ≠ 32 := by
  unfold spec_replace_separator
  split <;> simp_all

theorem snake_clean_split_hump (c x : Nat) (h : c ≠ 45 ∧ c ≠ 46 ∧ c ≠ 32)
    (hx : x ∈ spec_split_hump c) : snake_clean x := by
  unfold spec_split_hump at hx
  split at hx
  · simp only [List.mem_cons, List.mem_singleton, List.mem_nil_iff, or_false] at hx
    rcases hx with rfl | rfl
    · exact ⟨by decide, by decide, by decide, by decide⟩
    · exact snake_clean_tolower c h
  · next hu =>
    simp only [List.mem_singleton] at hx
    subst hx
    exact ⟨by simpa using hu, h⟩

theorem snakecase_spec_clean (s : List Nat) : ∀ x ∈ snakecase_spec s, snake_clean x := by
  intro x hx
  unfold snakecase_spec at hx
  cases s with
  | nil => simp at hx
  | cons a s =>
    simp only [List.map_cons, List.mem_cons, List.mem_flatMap, List.mem_map] at hx
    rcases hx with rfl | ⟨c, ⟨b, _, rfl⟩, hx⟩
    · exact snake_clean_tolower _ (spec_replace_separator_ne a)
    · exact snake_clean_split_hump _ _ (spec_replace_separator_ne b) hx

theorem snakecase_spec_fix (l : List Nat) (h : ∀ x ∈ l, snake_clean x) :
    snakecase_spec l = l := by
  have hmap : ∀ l : List Nat, (∀ x ∈ l, snake_clean x) → l.map spec_replace_separator = l := by
    intro l hl
    induction l with
    | nil => rfl
    | cons a l ih =>
      have ha := hl a (List.mem_cons_self _ _)
      have hl2 : ∀ x ∈ l, snake_clean x := fun x hx => hl x (List.mem_cons_of_mem _ hx)
      have h1 : spec_replace_separator a = a := by
        unfold spec_replace_separator
        rw [if_neg]
        rintro (h | h | h)
        · exact ha.2.1 h
        · exact ha.2.2.1 h
        · exact ha.2.2.2 h
      simp [h1, ih hl2]
  have hflat : ∀ l : List Nat, (∀ x ∈ l, snake_clean x) → l.flatMap spec_split_hump = l := by
    intro l hl
    induction l with
    | nil => rfl
    | cons a l ih =>
      have ha := hl a (List.mem_cons_self _ _)
      have hl2 : ∀ x ∈ l, snake_clean x := fun x hx => hl x (List.mem_cons_of_mem _ hx)
      simp [List.flatMap_cons, spec_split_hump, ha.1, ih hl2]
  unfold snakecase_spec
  rw [hmap l h]
  cases l with
  | nil => rfl
  | cons a l =>
    have ha := h a (List.mem_cons_self _ _)
    have hl2 : ∀ x ∈ l, snake_clean x := fun x hx => h x (List.mem_cons_of_mem _ hx)
    simp [tolower_fix a ha.1, hflat l hl2]

/-- C1: for every input, `snakecase` computes the two-pass algorithm of the specification
(separators `-`, `.`, space to `_`, then the first character lowercased and every later
uppercase letter turned into `_` and its lowercase form); the empty input gives the empty
output, `"a--b"` gives `"a__b"` and `"ABC"` gives `"a_b_c"`. -/
theorem snakecase_two_pass :
    (∀ s : List Nat, snakecase s = snakecase_spec s) ∧
    snakecase [] = [] ∧
    snakecase (ascii "a--b") = ascii "a__b" ∧
    snakecase (ascii "ABC") = ascii "a_b_c" :=
  ⟨snakecase_eq_spec, by decide, by decide, by decide⟩

/-- C2 as the specification states it fails: `snakecase "Foo Bar-Baz.qux"` is not
`"foo_bar_baz_qux"`. -/
theorem snakecase_foo_bar_not_single :
    snakecase (ascii "Foo Bar-Baz.qux") ≠ ascii "foo_bar_baz_qux" := by decide

/-- C2, amended: `snakecase "Foo Bar-Baz.qux"` is `"foo__bar__baz_qux"`; the separator
before an uppercase letter and the `_` inserted for that letter are both kept. -/
theorem snakecase_foo_bar :
    snakecase (ascii "Foo Bar-Baz.qux") = ascii "foo__bar__baz_qux" := by decide

/-- C3: `snakecase` is idempotent on every input, and `"a_b_c"` is returned unchanged. -/
theorem snakecase_idempotent :
    (∀ s : List Nat, snakecase (snakecase s) = snakecase s) ∧
    snakecase (ascii "a_b_c") = ascii "a_b_c" := by
  refine ⟨fun s => ?_, by decide⟩
  rw [snakecase_eq_spec (snakecase s), snakecase_eq_spec s]
  exact snakecase_spec_fix _ (snakecase_spec_clean s)

/-- C4: the output of `snakecase` holds no ASCII uppercase letter and none of `-`, `.`,
space. -/
theorem snakecase_canonical (s : List Nat) :
    ∀ x ∈ snakecase s, isupper x = false ∧ x ≠ 45 ∧ x ≠ 46 ∧ x ≠ 32 := by
  rw [snakecase_eq_spec s]
  exact snakecase_spec_clean s

theorem snakecase_canonical_witness :
    98 ∈ snakecase (ascii "a-B") ∧ (isupper 98 = false ∧ 98 ≠ 45 ∧ 98 ≠ 46 ∧ 98 ≠ 32) :=
  ⟨by decide, snakecase_canonical (ascii "a-B") 98 (by decide)⟩

/-! ## `camelcase` and `pascalcase` -/

/-- The body of the `camelcase` loop, on the byte read. -/
theorem camelcase_eq_foldl (s : List Nat) (h : s ≠ []) :
    camelcase s = (s.foldl (fun (st : List Nat × Bool) c =>
      if c = 45 ∨ c = 95 ∨ c = 46 ∨ c = 32 then (st.1, true)
      else if isalnum c then
        if st.1.length = 0 then (st.1 ++ [tolower c], st.2)
        else if st.2 then (st.1 ++ [toupper c], false)
        else (st.1 ++ [c], st.2)
      else (st.1, st.2)) ([], false)).1 := by
  unfold camelcase
  have hl : s.length ≠ 0 := by simpa using h
  simp only [hl, if_false]
  rw [forLoop_eq_foldl (fun c (st : List Nat × Bool) =>
      if c = 45 ∨ c = 95 ∨ c = 46 ∨ c = 32 then (st.1, true)
      else if isalnum c then
        if st.1.length = 0 then (st.1 ++ [tolower c], st.2)
        else if st.2 then (st.1 ++ [toupper c], false)
        else (st.1 ++ [c], st.2)
      else (st.1, st.2)) s ([], false)]

theorem camelcase_foldl_scan (l acc : List Nat) (pending : Bool) :
    (l.foldl (fun (st : List Nat × Bool) c =>
      if c = 45 ∨ c = 95 ∨ c = 46 ∨ c = 32 then (st.1, true)
      else if isalnum c then
        if st.1.length = 0 then (st.1 ++ [tolower c], st.2)
        else if st.2 then (st.1 ++ [toupper c], false)
        else (st.1 ++ [c], st.2)
      else (st.1, st.2)) (acc, pending)).1
      = acc ++ camelcase_scan l pending (decide (acc ≠ [])) := by
  induction l generalizing acc pending with
  | nil => simp [camelcase_scan]
  | cons c l ih =>
    rw [List.foldl_cons, camelcase_scan]
    by_cases hsep : c = 45 ∨ c = 95 ∨ c = 46 ∨ c = 32
    · have hs : spec_is_separator c = true := by simpa [spec_is_separator, or_assoc] using hsep
      simp only [hsep, hs, if_true]
      exact ih acc true
    · have hs : spec_is_separator c = false := by
        simpa [spec_is_separator, and_assoc] using hsep
      simp only [hsep, hs, if_false, Bool.false_eq_true]
      by_cases hal : isalnum c = true
      · simp only [hal, if_true]
        by_cases hacc : acc = []
        · subst hacc
          simp only [List.length_nil, if_true, List.nil_append]
          rw [ih]
          simp
        · have hlen : acc.length ≠ 0 := by simpa using hacc
          simp only [hlen, if_false]
          cases pending with
          | true =>
            simp only [if_true]
            rw [ih]
            simp [hacc]
          | false =>
            simp only [Bool.false_eq_true, if_false]
            rw [ih]
            simp [hacc]
      · simp only [hal, if_false, Bool.false_eq_true]
        exact ih acc pending

theorem camelcase_eq_spec (s : List Nat) : camelcase s = camelcase_spec s := by
  cases s with
  | nil => rfl
  | cons a s =>
    rw [camelcase_eq_foldl (a :: s) (List.cons_ne_nil _ _), camelcase_foldl_scan]
    simp [camelcase_spec]

/-- C5: for every input, `camelcase` computes the specified scan with a pending-capitalize
flag, initially clear: a separator sets the flag and emits nothing; an alphanumeric
character is emitted lowercased when it is the first emitted one, otherwise uppercased with
the flag cleared when the flag is set, otherwise as it is; any other character is dropped.
`camelcase "foo_bar-baz qux"` is `"fooBarBazQux"`. -/
theorem camelcase_scan_correct :
    (∀ s : List Nat, camelcase s = camelcase_spec s) ∧
    camelcase (ascii "foo_bar-baz qux") = ascii "fooBarBazQux" :=
  ⟨camelcase_eq_spec, by decide⟩

theorem isalnum_tolower (c : Nat) (h : isalnum c = true) : isalnum (tolower c) = true := by
  unfold isalnum tolower isupper islower isdigit at *
  split <;> simp_all
  omega

theorem isalnum_toupper (c : Nat) (h : isalnum c = true) : isalnum (toupper c) = true := by
  unfold isalnum toupper isupper islower isdigit at *
  split <;> simp_all
  all_goals omega

theorem toupper_alnum (c : Nat) (h : isalnum c = true) :
    isupper (toupper c) = true ∨ isdigit (toupper c) = true := by
  unfold isalnum toupper isupper islower isdigit at *
  split <;> simp_all
  all_goals omega

theorem camelcase_scan_alnum (l : List Nat) (pending emitted : Bool) :
    ∀ x ∈ camelcase_scan l pending emitted, isalnum x = true := by
  induction l generalizing pending emitted with
  | nil => simp [camelcase_scan]
  | cons c l ih =>
    intro x hx
    rw [camelcase_scan] at hx
    split at hx
    · exact ih _ _ x hx
    · split at hx
      · next hal =>
        split at hx
        · rcases List.mem_cons.1 hx with rfl | hx
          · exact isalnum_tolower c hal
          · exact ih _ _ x hx
        · split at hx
          · rcases List.mem_cons.1 hx with rfl | hx
            · exact isalnum_toupper c hal
            · exact ih _ _ x hx
          · rcases List.mem_cons.1 hx with rfl | hx
            · exact hal
            · exact ih _ _ x hx
      · exact ih _ _ x hx

theorem camelcase_alnum (s : List Nat) : ∀ x ∈ camelcase s, isalnum x = true := by
  rw [camelcase_eq_spec]
  exact camelcase_scan_alnum s false false

theorem set_head_eq_capitalcase (l : List Nat) :
    (if l.length > 0 then l.set 0 (toupper (l.getD 0 0)) else l) = capitalcase l := by
  cases l with
  | nil => rfl
  | cons a l =>
    cases l with
    | nil => simp [capitalcase]
    | cons b l => simp [capitalcase]

theorem pascalcase_eq (s : List Nat) : pascalcase s = capitalcase (camelcase s) := by
  unfold pascalcase
  exact set_head_eq_capitalcase (camelcase s)

theorem capitalcase_cons (a : Nat) (l : List Nat) : capitalcase (a :: l) = toupper a :: l := by
  cases l with
  | nil => simp [capitalcase]
  | cons b l => simp [capitalcase]

/-- C6 as the specification states it fails: `pascalcase "1abc"` is the non-empty `"1abc"`,
whose first character is a digit, not an uppercase letter. -/
theorem pascalcase_digit_head :
    pascalcase (ascii "1abc") ≠ [] ∧
    ¬ ∃ c rest, pascalcase (ascii "1abc") = c :: rest ∧ isupper c = true := by
  have h : pascalcase (ascii "1abc") = [49, 97, 98, 99] := by decide
  rw [h]
  refine ⟨by decide, ?_⟩
  rintro ⟨c, rest, hc, hu⟩
  injection hc with h1 h2
  subst h1
  exact absurd hu (by decide)

/-- C6, amended: whenever `pascalcase s` is not empty, its first character is an ASCII
uppercase letter or an ASCII digit. -/
theorem pascalcase_head_upper_or_digit (s : List Nat) (h : pascalcase s ≠ []) :
    ∃ c rest, pascalcase s = c :: rest ∧ (isupper c = true ∨ isdigit c = true) := by
  rw [pascalcase_eq] at h ⊢
  cases hc : camelcase s with
  | nil => rw [hc] at h; exact absurd rfl h
  | cons a l =>
    refine ⟨toupper a, l, capitalcase_cons a l, toupper_alnum a ?_⟩
    exact camelcase_alnum s a (by rw [hc]; exact List.mem_cons_self _ _)

theorem pascalcase_head_upper_or_digit_witness :
    pascalcase (ascii "foo_bar") ≠ [] ∧
    ∃ c rest, pascalcase (ascii "foo_bar") = c :: rest ∧
      (isupper c = true ∨ isdigit c = true) :=
  ⟨by decide, pascalcase_head_upper_or_digit (ascii "foo_bar") (by decide)⟩

/-- C7: for every input, `pascalcase s` is `capitalcase (camelcase s)`, the `camelcase`
result with its first character uppercased, and it is empty when `camelcase s` is empty;
`pascalcase "foo_bar"` is `"FooBar"`. -/
theorem pascalcase_capital_camel :
    (∀ s : List Nat, pascalcase s = capitalcase (camelcase s)) ∧
    (∀ s : List Nat, camelcase s = [] → pascalcase s = []) ∧
    pascalcase (ascii "foo_bar") = ascii "FooBar" := by
  refine ⟨pascalcase_eq, fun s h => ?_, by decide⟩
  rw [pascalcase_eq, h]
  rfl

theorem pascalcase_capital_camel_witness :
    camelcase (ascii "-.") = [] ∧ pascalcase (ascii "-.") = [] :=
  ⟨by decide, pascalcase_capital_camel.2.1 (ascii "-.") (by decide)⟩

/-! ## The trimming loops -/

theorem getD_at_length (pre post : List Nat) (x : Nat) :
    (pre ++ x :: post).getD pre.length 0 = x := by
  rw [List.getD_append_right _ _ _ _ (Nat.le_refl _)]
  simp

theorem trim_start_loop (rest : List Nat) :
    ∀ (pre string : List Nat) (fuel : Nat), string = pre ++ rest → rest.length ≤ fuel →
      whileLoop (fun start => decide (start < string.length) && isspace (string.getD start 0))
        (fun start => start + 1) fuel pre.length
        = pre.length + (rest.takeWhile isspace).length := by
  induction rest with
  | nil =>
    intro pre string fuel hs _
    subst hs
    cases fuel with
    | zero => simp [whileLoop]
    | succ f => simp [whileLoop]
  | cons c rest ih =>
    intro pre string fuel hs hf
    cases fuel with
    | zero => simp at hf
    | succ f =>
      have hlt : pre.length < string.length := by subst hs; simp
      have hget : string.getD pre.length 0 = c := by subst hs; exact getD_at_length pre rest c
      rw [whileLoop, hget]
      by_cases hc : isspace c = true
      · have h := ih (pre ++ [c]) string f (by simp [hs]) (by simpa using hf)
        simp only [List.length_append, List.length_singleton] at h
        simp only [hlt, hc, decide_True, Bool.and_self, if_true, List.takeWhile_cons,
          List.length_cons]
        rw [h]
        omega
      · simp [hc]

theorem trim_start_eq (l : List Nat) :
    trim_start l l.length 0 = (l.takeWhile isspace).length := by
  have h := trim_start_loop l [] l l.length rfl (Nat.le_refl _)
  simpa [trim_start] using h

theorem trim_end_loop (mid : List Nat) :
    ∀ (pre post string : List Nat) (c0 fuel : Nat), string = pre ++ c0 :: (mid ++ post) →
      mid.length ≤ fuel →
      whileLoop (fun end_ => decide (end_ > pre.length) && isspace (string.getD end_ 0))
        (fun end_ => end_ - 1) fuel (pre.length + mid.length)
        = pre.length + (mid.rdropWhile isspace).length := by
  induction mid using List.reverseRecOn with
  | nil =>
    intro pre post string c0 fuel _ _
    cases fuel with
    | zero => simp [whileLoop]
    | succ f => simp [whileLoop]
  | append_singleton mid x ih =>
    intro pre post string c0 fuel hs hf
    cases fuel with
    | zero => simp at hf
    | succ f =>
      have hs2 : string = (pre ++ c0 :: mid) ++ x :: post := by simp [hs]
      have hidx : pre.length + (mid ++ [x]).length = (pre ++ c0 :: mid).length := by
        simp
      have hget : string.getD (pre.length + (mid ++ [x]).length) 0 = x := by
        rw [hidx, hs2]
        exact getD_at_length _ _ _
      have hgt : pre.length + (mid ++ [x]).length > pre.length := by simp
      rw [whileLoop, hget]
      by_cases hx : isspace x = true
      · have h := ih pre (x :: post) string c0 f (by simp [hs]) (by simpa using hf)
        have hpred : pre.length + (mid ++ [x]).length - 1 = pre.length + mid.length := by
          simp
        simp only [hgt, hx, decide_True, Bool.and_self, if_true]
        rw [hpred, h, List.rdropWhile_concat_pos _ _ _ hx]
      · rw [List.rdropWhile_concat_neg _ _ _ hx]
        simp [hx]

theorem dropWhile_head_not (l m : List Nat) (c : Nat)
    (h : l.dropWhile isspace = c :: m) : isspace c = false := by
  have hne : l.dropWhile isspace ≠ [] := by rw [h]; exact List.cons_ne_nil _ _
  have := List.head_dropWhile_not isspace l hne
  simpa [h] using this

theorem rdropWhile_cons_not (c : Nat) (l : List Nat) (h : isspace c = false) :
    (c :: l).rdropWhile isspace = c :: l.rdropWhile isspace := by
  induction l using List.reverseRecOn with
  | nil => simp [List.rdropWhile, h]
  | append_singleton l x ih =>
    by_cases hx : isspace x = true
    · rw [← List.cons_append, List.rdropWhile_concat_pos _ _ _ hx,
        List.rdropWhile_concat_pos _ _ _ hx, ih]
    · rw [← List.cons_append, List.rdropWhile_concat_neg _ _ _ hx,
        List.rdropWhile_concat_neg _ _ _ hx, List.cons_append]

theorem take_rdropWhile_length (l : List Nat) :
    l.take (l.rdropWhile isspace).length = l.rdropWhile isspace :=
  (List.prefix_iff_eq_take.1 (List.rdropWhile_prefix isspace l)).symm

/-- The function `trimcase` drops the longest whitespace prefix and the longest whitespace
suffix of what is left. -/
theorem trimcase_eq (l : List Nat) :
    trimcase l = (l.dropWhile isspace).rdropWhile isspace := by
  unfold trimcase
  simp only
  rw [trim_start_eq]
  have hl := List.takeWhile_append_dropWhile isspace l
  cases hm : l.dropWhile isspace with
  | nil =>
    rw [hm, List.append_nil] at hl
    rw [hl]
    simp
  | cons c0 m =>
    rw [hm] at hl
    have hlen : l.length = (l.takeWhile isspace).length + (m.length + 1) := by
      conv => lhs; rw [← hl]
      simp
    have hne : (l.takeWhile isspace).length ≠ l.length := by omega
    rw [if_neg hne]
    have hend := trim_end_loop m (l.takeWhile isspace) [] l c0 l.length
      (by rw [List.append_nil]; exact hl.symm) (by omega)
    have hlast : l.length - 1 = (l.takeWhile isspace).length + m.length := by omega
    unfold trim_end
    rw [hlast, hend]
    have hdrop : l.drop (l.takeWhile isspace).length = c0 :: m := by
      have h := List.drop_left (l.takeWhile isspace) (c0 :: m)
      rwa [hl] at h
    rw [hdrop, rdropWhile_cons_not c0 m (dropWhile_head_not l m c0 hm)]
    have hk : (l.takeWhile isspace).length + (m.rdropWhile isspace).length
        - (l.takeWhile isspace).length + 1 = (m.rdropWhile isspace).length + 1 := by omega
    rw [hk, List.take_succ_cons, take_rdropWhile_length]

theorem whileLoop_exit {σ : Type} (cond : σ → Bool) (body : σ → σ) (measure : σ → Nat)
    (hdec : ∀ st, cond st = true → measure (body st) < measure st) :
    ∀ (fuel : Nat) (st : σ), measure st ≤ fuel → cond (whileLoop cond body fuel st) = false := by
  intro fuel
  induction fuel with
  | zero =>
    intro st h
    rw [whileLoop]
    cases hc : cond st with
    | false => rfl
    | true => have := hdec st hc; omega
  | succ f ih =>
    intro st h
    rw [whileLoop]
    cases hc : cond st with
    | false => simp [hc]
    | true =>
      simp only [if_true]
      have := hdec st hc
      exact ih (body st) (by omega)

/-- The `start` loop leaves by its own test within `len` rounds. -/
theorem trim_start_exit (string : List Nat) (len : Nat) :
    (decide (trim_start string len 0 < len)
      && isspace (string.getD (trim_start string len 0) 0)) = false := by
  unfold trim_start
  exact whileLoop_exit
    (fun start => decide (start < len) && isspace (string.getD start 0))
    (fun start => start + 1) (fun start => len - start)
    (by intro st h; simp at h; dsimp only; omega) len 0 (by dsimp only; omega)

/-- The `end` loop leaves by its own test within `len` rounds. -/
theorem trim_end_exit (string : List Nat) (len start : Nat) :
    (decide (trim_end string len start (len - 1) > start)
      && isspace (string.getD (trim_end string len start (len - 1)) 0)) = false := by
  unfold trim_end
  exact whileLoop_exit
    (fun end_ => decide (end_ > start) && isspace (string.getD end_ 0))
    (fun end_ => end_ - 1) (fun end_ => end_ - start)
    (by intro st h; simp at h; dsimp only; omega) len (len - 1) (by dsimp only; omega)

/-! ## `sentencecase` -/

theorem last_is_space_iff (out : List Nat) (h : out ≠ []) :
    out.getD (out.length - 1) 0 = 32 ↔ out.getLast? = some 32 := by
  rw [List.getLast?_eq_getElem?, List.getD_eq_getElem?_getD]
  have hlt : out.length - 1 < out.length := by
    have : 0 < out.length := List.length_pos.2 h
    omega
  rw [List.getElem?_eq_getElem hlt]
  simp

theorem code_space_eq (buffer1 : List Nat) :
    (if buffer1.length > 0 ∧ buffer1.getD (buffer1.length - 1) 0 ≠ 32 then buffer1 ++ [32]
      else buffer1) = spec_space_after buffer1 := by
  unfold spec_space_after
  by_cases h : buffer1 = []
  · subst h
    simp
  · have hlen : buffer1.length > 0 := List.length_pos.2 h
    by_cases h32 : buffer1.getLast? = some 32
    · have h1 := (last_is_space_iff buffer1 h).2 h32
      rw [if_neg (fun hc => hc.2 h1), if_pos (Or.inr h32)]
    · have h1 : buffer1.getD (buffer1.length - 1) 0 ≠ 32 :=
        fun hc => h32 ((last_is_space_iff buffer1 h).1 hc)
      rw [if_pos ⟨hlen, h1⟩, if_neg (fun hc => hc.elim h h32)]

theorem sentencecase_pass_eq (s : List Nat) :
    sentencecase_pass s s.length = sentence_pass_spec spec_space_after s := by
  unfold sentencecase_pass sentence_pass_spec
  rw [forLoop_eq_foldl (fun c (buffer1 : List Nat) =>
    if c = 45 ∨ c = 95 ∨ c = 46 ∨ c = 32 then
      if buffer1.length > 0 ∧ buffer1.getD (buffer1.length - 1) 0 ≠ 32 then buffer1 ++ [32]
      else buffer1
    else if isupper c then
      (if buffer1.length > 0 ∧ buffer1.getD (buffer1.length - 1) 0 ≠ 32 then buffer1 ++ [32]
        else buffer1) ++ [tolower c]
    else buffer1 ++ [tolower c]) s []]
  congr 1
  funext out c
  unfold sentence_step
  rw [code_space_eq]
  by_cases hsep : c = 45 ∨ c = 95 ∨ c = 46 ∨ c = 32
  · have hs : spec_is_separator c = true := by simpa [spec_is_separator, or_assoc] using hsep
    simp [hsep, hs]
  · have hs : spec_is_separator c = false := by
      simpa [spec_is_separator, and_assoc] using hsep
    simp [hsep, hs]

theorem set_head_capitalcase (l : List Nat) :
    l.set 0 (toupper (l.getD 0 0)) = capitalcase l := by
  cases l with
  | nil => rfl
  | cons a l => rw [capitalcase_cons]; simp

theorem sentencecase_eq_pass (s : List Nat) :
    sentencecase s = capitalcase (trimcase (sentencecase_pass s s.length)) := by
  cases s with
  | nil => rfl
  | cons a s =>
    unfold sentencecase trimcase
    simp only [List.length_cons, Nat.add_one_ne_zero, if_false]
    split
    · rfl
    · rw [if_pos (Nat.succ_pos _)]
      exact set_head_capitalcase _

theorem spec_space_rel (a b : List Nat) (h : b = a ∨ b = 32 :: a) :
    spec_space b = spec_space_after a ∨ spec_space b = 32 :: spec_space_after a := by
  cases a with
  | nil =>
    right
    rcases h with rfl | rfl <;> simp [spec_space, spec_space_after]
  | cons x a =>
    rcases h with rfl | rfl
    · left
      simp [spec_space, spec_space_after]
    · right
      unfold spec_space spec_space_after
      rw [List.getLast?_cons_cons]
      by_cases h32 : (x :: a).getLast? = some 32
      · simp [h32]
      · simp [h32]

theorem sentence_step_rel (a b : List Nat) (c : Nat) (h : b = a ∨ b = 32 :: a) :
    sentence_step spec_space b c = sentence_step spec_space_after a c ∨
      sentence_step spec_space b c = 32 :: sentence_step spec_space_after a c := by
  unfold sentence_step
  split
  · exact spec_space_rel a b h
  · split
    · rcases spec_space_rel a b h with h1 | h1
      · left; rw [h1]
      · right; rw [h1]; rfl
    · rcases h with rfl | rfl
      · left; rfl
      · right; rfl

theorem sentence_foldl_rel (l : List Nat) :
    ∀ a b : List Nat, (b = a ∨ b = 32 :: a) →
      (l.foldl (sentence_step spec_space) b = l.foldl (sentence_step spec_space_after) a ∨
        l.foldl (sentence_step spec_space) b
          = 32 :: l.foldl (sentence_step spec_space_after) a) := by
  induction l with
  | nil => intro a b h; exact h
  | cons c l ih =>
    intro a b h
    exact ih _ _ (sentence_step_rel a b c h)

theorem trimcase_cons_space (l : List Nat) : trimcase (32 :: l) = trimcase l := by
  rw [trimcase_eq, trimcase_eq, List.dropWhile_cons_of_pos (by decide)]

theorem sentencecase_eq_spec_after (s : List Nat) :
    sentencecase s = capitalcase (trimcase (sentence_pass_spec spec_space_after s)) := by
  rw [sentencecase_eq_pass, sentencecase_pass_eq]

theorem sentencecase_eq_spec (s : List Nat) :
    sentencecase s = capitalcase (trimcase (sentence_pass_spec spec_space s)) := by
  rw [sentencecase_eq_spec_after]
  unfold sentence_pass_spec
  rcases sentence_foldl_rel s [] [] (Or.inl rfl) with h | h
  · rw [h]
  · rw [h, trimcase_cons_space]

/-- C8: for every input, `sentencecase s` is `capitalcase (trimcase (p s))`, where `p` is
the single pass of the specification: a separator emits one space only if the previously
emitted character was not already a space, an uppercase letter emits a space under the same
rule and then its lowercase form, any other character is emitted lowercased.  This holds
whether or not the rule lets a space be emitted before any other character.
`sentencecase "fooBar_baz"` is `"Foo bar baz"`. -/
theorem sentencecase_pipeline :
    (∀ s : List Nat,
      sentencecase s = capitalcase (trimcase (sentence_pass_spec spec_space s))) ∧
    (∀ s : List Nat,
      sentencecase s = capitalcase (trimcase (sentence_pass_spec spec_space_after s))) ∧
    sentencecase (ascii "fooBar_baz") = ascii "Foo bar baz" :=
  ⟨sentencecase_eq_spec, sentencecase_eq_spec_after, by decide⟩

theorem chain_snoc (out : List Nat) (x : Nat) (h : List.Chain' not_both_space out)
    (hx : x ≠ 32 ∨ out.getLast? ≠ some 32) : List.Chain' not_both_space (out ++ [x]) := by
  rw [List.chain'_append]
  refine ⟨h, List.chain'_singleton _, ?_⟩
  intro a ha y hy
  simp only [List.head?_cons, Option.mem_def, Option.some.injEq] at hy
  subst hy
  rintro ⟨h1, h2⟩
  subst h1
  rcases hx with hx | hx
  · exact hx h2
  · exact hx ha

theorem chain_space_after (out : List Nat) (h : List.Chain' not_both_space out) :
    List.Chain' not_both_space (spec_space_after out) := by
  unfold spec_space_after
  split
  · exact h
  · next hc =>
    exact chain_snoc out 32 h (Or.inr (fun h32 => hc (Or.inr h32)))

theorem tolower_ne_space (c : Nat) (h : c ≠ 32) : tolower c ≠ 32 := by
  unfold tolower isupper
  split <;> simp_all
  omega

theorem chain_sentence_step (out : List Nat) (c : Nat)
    (h : List.Chain' not_both_space out) :
    List.Chain' not_both_space (sentence_step spec_space_after out c) := by
  unfold sentence_step
  split
  · exact chain_space_after out h
  · next hsep =>
    have hc : c ≠ 32 := by
      intro h32
      subst h32
      exact hsep (by decide)
    split
    · exact chain_snoc _ _ (chain_space_after out h) (Or.inl (tolower_ne_space c hc))
    · exact chain_snoc _ _ h (Or.inl (tolower_ne_space c hc))

theorem chain_sentence_pass (s : List Nat) :
    List.Chain' not_both_space (sentence_pass_spec spec_space_after s) := by
  unfold sentence_pass_spec
  have h : ∀ (l out : List Nat), List.Chain' not_both_space out →
      List.Chain' not_both_space (l.foldl (sentence_step spec_space_after) out) := by
    intro l
    induction l with
    | nil => intro out h; exact h
    | cons c l ih => intro out h; exact ih _ (chain_sentence_step out c h)
  exact h s [] List.chain'_nil

theorem trimcase_within (l : List Nat) : trimcase l <:+: l := by
  rw [trimcase_eq]
  exact (List.rdropWhile_prefix isspace _).isInfix.trans
    (List.dropWhile_suffix isspace).isInfix

theorem toupper_eq_space (c : Nat) (h : toupper c = 32) : c = 32 := by
  unfold toupper islower at h
  split at h <;> simp_all
  omega

theorem isspace_toupper (c : Nat) (h : isspace c = false) : isspace (toupper c) = false := by
  unfold toupper islower isspace at *
  split <;> simp_all
  all_goals omega

theorem chain_capitalcase (l : List Nat) (h : List.Chain' not_both_space l) :
    List.Chain' not_both_space (capitalcase l) := by
  cases l with
  | nil => exact h
  | cons a l =>
    rw [capitalcase_cons]
    rw [List.chain'_cons'] at h ⊢
    refine ⟨fun y hy => ?_, h.2⟩
    rintro ⟨h1, h2⟩
    exact h.1 y hy ⟨toupper_eq_space a h1, h2⟩

theorem chain_no_double_space (l : List Nat) (h : List.Chain' not_both_space l) :
    ¬ [32, 32] <:+: l := by
  intro hin
  have h2 := List.Chain'.infix h hin
  rw [List.chain'_cons'] at h2
  exact h2.1 32 (by simp) ⟨rfl, rfl⟩

/-- The output of `trimcase` neither starts nor ends with whitespace. -/
theorem trimcase_ends (l : List Nat) :
    (trimcase l).head?.map isspace ≠ some true ∧
      (trimcase l).getLast?.map isspace ≠ some true := by
  rw [trimcase_eq]
  cases hm : l.dropWhile isspace with
  | nil => simp
  | cons c0 m =>
    have hc0 := dropWhile_head_not l m c0 hm
    constructor
    · rw [rdropWhile_cons_not c0 m hc0]
      simp [hc0]
    · have hne : (c0 :: m).rdropWhile isspace ≠ [] := by
        rw [rdropWhile_cons_not c0 m hc0]
        exact List.cons_ne_nil _ _
      have hlast := List.rdropWhile_last_not isspace (c0 :: m) hne
      rw [List.getLast?_eq_getLast _ hne]
      simpa using hlast

theorem capitalcase_ends (t : List Nat)
    (h : t.head?.map isspace ≠ some true ∧ t.getLast?.map isspace ≠ some true) :
    (capitalcase t).head?.map isspace ≠ some true ∧
      (capitalcase t).getLast?.map isspace ≠ some true := by
  cases t with
  | nil => exact h
  | cons a t =>
    rw [capitalcase_cons]
    have ha : isspace a = false := by simpa using h.1
    have hu := isspace_toupper a ha
    cases t with
    | nil => simp [hu]
    | cons b t =>
      refine ⟨by simp [hu], ?_⟩
      rw [List.getLast?_cons_cons]
      rw [List.getLast?_cons_cons] at h
      exact h.2

/-- C9: for every input, `sentencecase s` holds no two consecutive spaces, and it neither
starts nor ends with a whitespace character. -/
theorem sentencecase_spacing (s : List Nat) :
    ¬ [32, 32] <:+: sentencecase s ∧
    (sentencecase s).head?.map isspace ≠ some true ∧
    (sentencecase s).getLast?.map isspace ≠ some true := by
  rw [sentencecase_eq_spec_after]
  refine ⟨?_, capitalcase_ends _ (trimcase_ends _)⟩
  apply chain_no_double_space
  apply chain_capitalcase
  exact List.Chain'.infix (chain_sentence_pass s) (trimcase_within _)

/-! ## `titlecase` -/

theorem titlecase_foldl_scan (l acc : List Nat) (cap : Bool) :
    (l.foldl (fun (st : List Nat × Bool) c =>
      if c = 95 then (st.1 ++ [32], true)
      else if st.2 then (st.1 ++ [toupper c], false)
      else (st.1 ++ [tolower c], st.2)) (acc, cap)).1 = acc ++ titlecase_scan cap l := by
  induction l generalizing acc cap with
  | nil => simp [titlecase_scan]
  | cons c l ih =>
    rw [List.foldl_cons, titlecase_scan]
    by_cases h95 : c = 95
    · simp only [h95, if_true]
      rw [ih]
      simp
    · simp only [h95, if_false]
      cases cap with
      | true =>
        simp only [if_true]
        rw [ih]
        simp
      | false =>
        simp only [Bool.false_eq_true, if_false]
        rw [ih]
        simp

theorem titlecase_eq_scan (s : List Nat) :
    titlecase s = titlecase_scan true (snakecase s) := by
  unfold titlecase
  simp only
  rw [forLoop_eq_foldl (fun c (st : List Nat × Bool) =>
      if c = 95 then (st.1 ++ [32], true)
      else if st.2 then (st.1 ++ [toupper c], false)
      else (st.1 ++ [tolower c], st.2)) (snakecase s) ([], true)]
  rw [titlecase_foldl_scan]
  simp

theorem titlecase_scan_length (l : List Nat) (cap : Bool) :
    (titlecase_scan cap l).length = l.length := by
  induction l generalizing cap with
  | nil => rfl
  | cons c l ih =>
    rw [titlecase_scan]
    split
    · simp [ih]
    · split <;> simp [ih]

theorem intercalate_cons_cons (sep a b : List Nat) (l : List (List Nat)) :
    List.intercalate sep (a :: b :: l) = a ++ sep ++ List.intercalate sep (b :: l) := by
  simp [List.intercalate, List.intersperse]

theorem intercalate_head_cons (sep a : List Nat) (x : Nat) (l : List (List Nat)) :
    List.intercalate sep ((x :: a) :: l) = x :: List.intercalate sep (a :: l) := by
  cases l with
  | nil => simp [List.intercalate, List.intersperse]
  | cons b l => rw [intercalate_cons_cons, intercalate_cons_cons]; rfl

theorem splitOn_underscore_cons (c : Nat) (l : List Nat) :
    (c :: l).splitOn 95
      = if c = 95 then [] :: l.splitOn 95 else (l.splitOn 95).modifyHead (List.cons c) := by
  unfold List.splitOn
  rw [List.splitOnP_cons]
  by_cases h : c = 95 <;> simp [h]

theorem titlecase_scan_split (l : List Nat) :
    ∃ seg segs, l.splitOn 95 = seg :: segs ∧
      titlecase_scan true l = List.intercalate [32]
        (spec_capitalize_segment seg :: segs.map spec_capitalize_segment) ∧
      titlecase_scan false l = List.intercalate [32]
        (seg.map tolower :: segs.map spec_capitalize_segment) := by
  induction l with
  | nil => exact ⟨[], [], rfl, rfl, rfl⟩
  | cons c l ih =>
    obtain ⟨seg, segs, hsplit, htrue, hfalse⟩ := ih
    rw [splitOn_underscore_cons, hsplit]
    by_cases h95 : c = 95
    · refine ⟨[], seg :: segs, by simp [h95], ?_, ?_⟩
      · rw [titlecase_scan, if_pos h95, htrue]
        simp only [List.map_cons, spec_capitalize_segment]
        rw [intercalate_cons_cons]
        rfl
      · rw [titlecase_scan, if_pos h95, htrue]
        simp only [List.map_cons, List.map_nil]
        rw [intercalate_cons_cons]
        rfl
    · refine ⟨c :: seg, segs, by simp [h95, List.modifyHead], ?_, ?_⟩
      · rw [titlecase_scan, if_neg h95, if_pos rfl, hfalse]
        simp only [spec_capitalize_segment]
        rw [intercalate_head_cons]
      · rw [titlecase_scan, if_neg h95, if_neg (by simp), hfalse]
        simp only [List.map_cons]
        rw [intercalate_head_cons]

theorem titlecase_eq_spec (s : List Nat) : titlecase s = titlecase_spec s := by
  rw [titlecase_eq_scan]
  unfold titlecase_spec
  obtain ⟨seg, segs, hsplit, htrue, _⟩ := titlecase_scan_split (snakecase s)
  rw [hsplit, htrue]
  rfl

/-- C10: for every input, `titlecase s` is `snakecase s` split on `_`, with the first
character of every segment uppercased and the rest lowercased, joined with a single
space; empty segments are kept (`titlecase "a--b"` is `"A  B"`), the result has the length
of `snakecase s`, and `titlecase "foo_bar_baz"` is `"Foo Bar Baz"`. -/
theorem titlecase_split_join :
    (∀ s : List Nat, titlecase s = titlecase_spec s) ∧
    (∀ s : List Nat, (titlecase s).length = (snakecase s).length) ∧
    titlecase (ascii "a--b") = ascii "A  B" ∧
    titlecase (ascii "foo_bar_baz") = ascii "Foo Bar Baz" := by
  refine ⟨titlecase_eq_spec, fun s => ?_, by decide, by decide⟩
  rw [titlecase_eq_scan]
  exact titlecase_scan_length _ _

/-! ## `lowercase` and `uppercase` -/

theorem forLoop_map (f : Nat → Nat) (l : List Nat) :
    forLoop (fun i result_str => result_str ++ [f (l.getD i 0)]) l.length 0 [] = l.map f := by
  rw [forLoop_eq_foldl (fun c (result_str : List Nat) => result_str ++ [f c]) l []]
  rw [foldl_emit (fun c => [f c]) l []]
  induction l with
  | nil => rfl
  | cons c l ih => simpa using ih

theorem lowercase_eq_map (s : List Nat) : lowercase s = s.map tolower := by
  unfold lowercase
  exact forLoop_map tolower s

theorem uppercase_eq_map (s : List Nat) : uppercase s = s.map toupper := by
  unfold uppercase
  exact forLoop_map toupper s

theorem tolower_tolower (c : Nat) : tolower (tolower c) = tolower c :=
  tolower_fix _ (tolower_not_upper c)

theorem toupper_not_lower (c : Nat) : islower (toupper c) = false := by
  unfold toupper islower
  split <;> simp_all
  omega

theorem toupper_toupper (c : Nat) : toupper (toupper c) = toupper c := by
  have h := toupper_not_lower c
  generalize toupper c = d at h
  simp [toupper, h]

/-- C13: for every input, `lowercase s` and `uppercase s` have the length of `s`; at every
position `lowercase` turns an uppercase letter `A`..`Z` into the lowercase letter 32 places
up and keeps any other byte, and `uppercase` turns a lowercase letter `a`..`z` into the
uppercase letter 32 places down and keeps any other byte. -/
theorem lowercase_uppercase_pointwise (s : List Nat) :
    (lowercase s).length = s.length ∧ (uppercase s).length = s.length ∧
    (∀ i, i < s.length →
      (lowercase s).getD i 0
        = (if 65 ≤ s.getD i 0 ∧ s.getD i 0 ≤ 90 then s.getD i 0 + 32 else s.getD i 0) ∧
      (uppercase s).getD i 0
        = (if 97 ≤ s.getD i 0 ∧ s.getD i 0 ≤ 122 then s.getD i 0 - 32 else s.getD i 0)) := by
  rw [lowercase_eq_map, uppercase_eq_map]
  refine ⟨by simp, by simp, fun i hi => ?_⟩
  have h1 : (s.map tolower).getD i 0 = tolower (s.getD i 0) := by
    simp [List.getD_eq_getElem?_getD, List.getElem?_eq_getElem hi]
  have h2 : (s.map toupper).getD i 0 = toupper (s.getD i 0) := by
    simp [List.getD_eq_getElem?_getD, List.getElem?_eq_getElem hi]
  rw [h1, h2]
  simp [tolower, toupper, isupper, islower]

/-- C14: `lowercase` and `uppercase` are idempotent on every input, and `lowercase` does not
undo `uppercase`: `lowercase (uppercase "A")` is `"a"`. -/
theorem lowercase_uppercase_idempotent :
    (∀ s : List Nat, lowercase (lowercase s) = lowercase s) ∧
    (∀ s : List Nat, uppercase (uppercase s) = uppercase s) ∧
    ∃ s : List Nat, lowercase (uppercase s) ≠ s := by
  refine ⟨fun s => ?_, fun s => ?_, ⟨ascii "A", by decide⟩⟩
  · rw [lowercase_eq_map, lowercase_eq_map, List.map_map]
    exact List.map_congr_left (fun c _ => tolower_tolower c)
  · rw [uppercase_eq_map, uppercase_eq_map, List.map_map]
    exact List.map_congr_left (fun c _ => toupper_toupper c)

/-! ## `alphanumcase` -/

theorem alphanumcase_eq_filter (s : List Nat) : alphanumcase s = s.filter isalnum := by
  unfold alphanumcase
  rw [forLoop_eq_foldl (fun c (result_str : List Nat) =>
    if isalnum c then result_str ++ [c] else result_str) s []]
  have h : (fun (st : List Nat) (c : Nat) => if isalnum c then st ++ [c] else st)
      = fun st c => st ++ (if isalnum c then [c] else []) := by
    funext st c
    split <;> simp
  rw [h, foldl_emit]
  induction s with
  | nil => rfl
  | cons c s ih =>
    simp only [List.nil_append] at ih
    by_cases hc : isalnum c = true
    · simp [List.flatMap_cons, List.filter_cons, hc, ih]
    · simp [List.flatMap_cons, List.filter_cons, hc, ih]

/-- C17: for every input, `alphanumcase s` is the ASCII alphanumeric characters of `s` in
their order and casing: it holds no other character, it is a subsequence of `s`, and it is
no longer than `s`; `alphanumcase "a-b_c.d e"` is `"abcde"`. -/
theorem alphanumcase_subsequence (s : List Nat) :
    alphanumcase s = s.filter isalnum ∧
    (∀ c ∈ alphanumcase s,
      (65 ≤ c ∧ c ≤ 90) ∨ (97 ≤ c ∧ c ≤ 122) ∨ (48 ≤ c ∧ c ≤ 57)) ∧
    List.Sublist (alphanumcase s) s ∧
    (alphanumcase s).length ≤ s.length ∧
    alphanumcase (ascii "a-b_c.d e") = ascii "abcde" := by
  rw [alphanumcase_eq_filter]
  refine ⟨rfl, fun c hc => ?_, List.filter_sublist s, List.length_filter_le _ _, ?_⟩
  · have h := (List.mem_filter.1 hc).2
    simpa [isalnum, isupper, islower, isdigit, or_assoc] using h
  · rw [alphanumcase_eq_filter]
    decide

/-! ## `pathcase`, `backslashcase`, `spinalcase`, `dotcase` -/

theorem pathcase_eq_map (s : List Nat) :
    pathcase s = (snakecase s).map (fun c => if c = 95 then 47 else c) := by
  unfold pathcase
  exact forLoop_map (fun c => if c = 95 then 47 else c) (snakecase s)

theorem spinalcase_eq_map (s : List Nat) :
    spinalcase s = (snakecase s).map (fun c => if c = 95 then 45 else c) := by
  unfold spinalcase
  exact forLoop_map (fun c => if c = 95 then 45 else c) (snakecase s)

theorem dotcase_eq_map (s : List Nat) :
    dotcase s = (snakecase s).map (fun c => if c = 95 then 46 else c) := by
  unfold dotcase
  exact forLoop_map (fun c => if c = 95 then 46 else c) (snakecase s)

theorem backslashcase_eq_map (s : List Nat) :
    backslashcase s = (snakecase s).map (fun c => if c = 95 then 92 else c) := by
  unfold backslashcase
  simp only
  have h : (fun (i : Nat) (result_str : List Nat) =>
      if (snakecase s).getD i 0 = 95 then result_str ++ [92]
      else result_str ++ [(snakecase s).getD i 0])
      = fun i result_str =>
        result_str ++ [(fun c => if c = 95 then 92 else c) ((snakecase s).getD i 0)] := by
    funext i result_str
    simp only
    split <;> rfl
  rw [h]
  exact forLoop_map (fun c => if c = 95 then 92 else c) (snakecase s)

theorem map_replace_no_underscore (r : Nat) (hr : r ≠ 95) (l : List Nat) :
    95 ∉ l.map (fun c => if c = 95 then r else c) := by
  intro h
  obtain ⟨c, _, hc⟩ := List.mem_map.1 h
  by_cases h95 : c = 95
  · rw [if_pos h95] at hc
    exact hr hc
  · rw [if_neg h95] at hc
    exact h95 hc

/-- C12: for every input, `pathcase`, `backslashcase`, `spinalcase` and `dotcase` return
`snakecase s` with every `_` replaced by one `/`, one backslash, one `-`, one `.`
respectively and every other character kept in place; so the result has the length of
`snakecase s` and holds no `_`. -/
theorem separator_styles (s : List Nat) :
    (pathcase s = (snakecase s).map (fun c => if c = 95 then 47 else c) ∧
      backslashcase s = (snakecase s).map (fun c => if c = 95 then 92 else c) ∧
      spinalcase s = (snakecase s).map (fun c => if c = 95 then 45 else c) ∧
      dotcase s = (snakecase s).map (fun c => if c = 95 then 46 else c)) ∧
    ((pathcase s).length = (snakecase s).length ∧
      (backslashcase s).length = (snakecase s).length ∧
      (spinalcase s).length = (snakecase s).length ∧
      (dotcase s).length = (snakecase s).length) ∧
    (95 ∉ pathcase s ∧ 95 ∉ backslashcase s ∧ 95 ∉ spinalcase s ∧ 95 ∉ dotcase s) := by
  rw [pathcase_eq_map, backslashcase_eq_map, spinalcase_eq_map, dotcase_eq_map]
  refine ⟨⟨rfl, rfl, rfl, rfl⟩, ⟨by simp, by simp, by simp, by simp⟩, ?_, ?_, ?_, ?_⟩
  · exact map_replace_no_underscore 47 (by decide) _
  · exact map_replace_no_underscore 92 (by decide) _
  · exact map_replace_no_underscore 45 (by decide) _
  · exact map_replace_no_underscore 46 (by decide) _

/-! ## `capitalcase` -/

/-- C18: `capitalcase` gives the empty output on the empty input, and on a non-empty input
it uppercases the first character only and keeps every later character as it is, so the
output has the length of the input. -/
theorem capitalcase_first_only :
    capitalcase [] = [] ∧
    (∀ (c : Nat) (rest : List Nat), capitalcase (c :: rest) = toupper c :: rest) ∧
    (∀ s : List Nat, (capitalcase s).length = s.length) ∧
    capitalcase (ascii "foo-bar BAZ") = ascii "Foo-bar BAZ" := by
  refine ⟨rfl, capitalcase_cons, fun s => ?_, by decide⟩
  cases s with
  | nil => rfl
  | cons c rest => rw [capitalcase_cons]; rfl

/-! ## `trimcase` -/

theorem rdropWhile_split (l : List Nat) :
    ∃ post, l = l.rdropWhile isspace ++ post ∧ ∀ c ∈ post, isspace c = true := by
  induction l using List.reverseRecOn with
  | nil => exact ⟨[], by simp, by simp⟩
  | append_singleton l x ih =>
    by_cases hx : isspace x = true
    · obtain ⟨post, hl, hpost⟩ := ih
      refine ⟨post ++ [x], ?_, ?_⟩
      · rw [List.rdropWhile_concat_pos _ _ _ hx, ← List.append_assoc, ← hl]
      · intro c hc
        rcases List.mem_append.1 hc with h | h
        · exact hpost c h
        · rw [List.mem_singleton.1 h]; exact hx
    · exact ⟨[], by rw [List.rdropWhile_concat_neg _ _ _ hx, List.append_nil], by simp⟩

theorem trimcase_split (s : List Nat) :
    ∃ pre post, s = pre ++ trimcase s ++ post ∧
      (∀ c ∈ pre, isspace c = true) ∧ (∀ c ∈ post, isspace c = true) := by
  obtain ⟨post, hm, hpost⟩ := rdropWhile_split (s.dropWhile isspace)
  refine ⟨s.takeWhile isspace, post, ?_, fun c hc => List.mem_takeWhile_imp hc, hpost⟩
  rw [trimcase_eq, List.append_assoc, ← hm, List.takeWhile_append_dropWhile]

theorem trimcase_all_space (s : List Nat) (h : ∀ c ∈ s, isspace c = true) :
    trimcase s = [] := by
  rw [trimcase_eq, List.dropWhile_eq_nil_iff.2 h]
  rfl

theorem trimcase_length_le (s : List Nat) : (trimcase s).length ≤ s.length :=
  (trimcase_within s).length_le

theorem trimcase_fix (t : List Nat)
    (h : t.head?.map isspace ≠ some true ∧ t.getLast?.map isspace ≠ some true) :
    trimcase t = t := by
  rw [trimcase_eq]
  have h1 : t.dropWhile isspace = t := by
    cases t with
    | nil => rfl
    | cons a t =>
      have ha : isspace a = false := by simpa using h.1
      simp [List.dropWhile_cons, ha]
  rw [h1, List.rdropWhile_eq_self_iff]
  intro hne hp
  apply h.2
  rw [List.getLast?_eq_getLast _ hne]
  simp [hp]

/-- C15: for every input, `trimcase s` is `s` without its leading and trailing whitespace:
`s` is a run of whitespace, then `trimcase s`, then a run of whitespace; `trimcase s`
neither starts nor ends with a whitespace character (so both runs are maximal); it is empty
when `s` is all whitespace, and it is no longer than `s`.  `trimcase "  hi  "` is `"hi"`. -/
theorem trimcase_strips (s : List Nat) :
    (∃ pre post, s = pre ++ trimcase s ++ post ∧
      (∀ c ∈ pre, isspace c = true) ∧ (∀ c ∈ post, isspace c = true)) ∧
    (trimcase s).head?.map isspace ≠ some true ∧
    (trimcase s).getLast?.map isspace ≠ some true ∧
    ((∀ c ∈ s, isspace c = true) → trimcase s = []) ∧
    (trimcase s).length ≤ s.length ∧
    trimcase (ascii "  hi  ") = ascii "hi" :=
  ⟨trimcase_split s, (trimcase_ends s).1, (trimcase_ends s).2, trimcase_all_space s,
    trimcase_length_le s, by decide⟩

/-- C16: `trimcase` is idempotent on every input. -/
theorem trimcase_idempotent (s : List Nat) : trimcase (trimcase s) = trimcase s :=
  trimcase_fix _ (trimcase_ends s)

/-! ## `camelcase` after leading separators -/

theorem isalnum_not_separator (c : Nat) (h : isalnum c = true) :
    spec_is_separator c = false := by
  unfold isalnum isupper islower isdigit at h
  unfold spec_is_separator
  simp at h ⊢
  omega

theorem camelcase_scan_separators (seps l : List Nat) (emitted : Bool)
    (h : ∀ c ∈ seps, spec_is_separator c = true) :
    camelcase_scan (seps ++ l) true emitted = camelcase_scan l true emitted := by
  induction seps with
  | nil => rfl
  | cons a seps ih =>
    have ha := h a (List.mem_cons_self _ _)
    rw [List.cons_append, camelcase_scan, if_pos ha]
    exact ih (fun c hc => h c (List.mem_cons_of_mem _ hc))

theorem camelcase_scan_plain (rest : List Nat) (h : ∀ c ∈ rest, isalnum c = true) :
    camelcase_scan rest false true = rest := by
  induction rest with
  | nil => rfl
  | cons a rest ih =>
    have ha := h a (List.mem_cons_self _ _)
    rw [camelcase_scan, if_neg (by simp [isalnum_not_separator a ha]), if_pos ha]
    simp only [Bool.not_true, Bool.false_eq_true, if_false]
    rw [ih (fun c hc => h c (List.mem_cons_of_mem _ hc))]

/-- C20: the first emitted character of `camelcase` does not clear the pending-capitalize
flag: on one or more separators followed by alphanumeric characters `c1 c2 ...`, the result
is `c1` lowercased, `c2` uppercased and the remaining characters as they are;
`camelcase "_foo"` is `"fOo"` and `pascalcase "_foo"` is `"FOo"`. -/
theorem camelcase_leading_separator (seps rest : List Nat) (c1 c2 : Nat)
    (hne : seps ≠ []) (hseps : ∀ c ∈ seps, spec_is_separator c = true)
    (h1 : isalnum c1 = true) (h2 : isalnum c2 = true)
    (hrest : ∀ c ∈ rest, isalnum c = true) :
    camelcase (seps ++ c1 :: c2 :: rest) = tolower c1 :: toupper c2 :: rest ∧
    camelcase (ascii "_foo") = ascii "fOo" ∧
    pascalcase (ascii "_foo") = ascii "FOo" := by
  refine ⟨?_, by decide, by decide⟩
  rw [camelcase_eq_spec, camelcase_spec]
  cases seps with
  | nil => exact absurd rfl hne
  | cons a seps =>
    have ha := hseps a (List.mem_cons_self _ _)
    rw [List.cons_append, camelcase_scan, if_pos ha,
      camelcase_scan_separators seps _ false (fun c hc => hseps c (List.mem_cons_of_mem _ hc))]
    rw [camelcase_scan, if_neg (by simp [isalnum_not_separator c1 h1]), if_pos h1]
    simp only [Bool.not_false, if_true]
    rw [camelcase_scan, if_neg (by simp [isalnum_not_separator c2 h2]), if_pos h2]
    simp only [Bool.not_true, Bool.false_eq_true, if_false, if_true]
    rw [camelcase_scan_plain rest hrest]

theorem camelcase_leading_separator_witness :
    camelcase (ascii "-_" ++ 102 :: 111 :: ascii "oBar")
      = tolower 102 :: toupper 111 :: ascii "oBar" ∧
    camelcase (ascii "_foo") = ascii "fOo" ∧
    pascalcase (ascii "_foo") = ascii "FOo" :=
  camelcase_leading_separator (ascii "-_") (ascii "oBar") 102 111 (by decide) (by decide)
    (by decide) (by decide) (by decide)

/-! ## `constcase` -/

theorem py_upper_cons_ascii (c : Nat) (rest : List Nat) (h : c < 128) :
    py_upper (c :: rest) = toupper c :: py_upper rest := by
  conv => lhs; unfold py_upper
  split
  · simp at *
  · next heq => simp at heq; omega
  · next heq => simp at heq; omega
  · next heq => simp at heq; omega
  · next heq =>
    simp at heq
    obtain ⟨h1, h2⟩ := heq
    subst h1
    subst h2
    rfl

theorem py_upper_ascii (l : List Nat) (h : ∀ c ∈ l, c < 128) :
    py_upper l = l.map toupper := by
  induction l with
  | nil => simp [py_upper]
  | cons c l ih =>
    rw [py_upper_cons_ascii c l (h c (List.mem_cons_self _ _)),
      ih (fun x hx => h x (List.mem_cons_of_mem _ hx))]
    rfl

theorem tolower_lt (c : Nat) (h : c < 128) : tolower c < 128 := by
  unfold tolower isupper
  split <;> simp_all
  omega

theorem spec_replace_separator_lt (c : Nat) (h : c < 128) :
    spec_replace_separator c < 128 := by
  unfold spec_replace_separator
  split
  · decide
  · exact h

theorem snakecase_ascii (s : List Nat) (h : ∀ c ∈ s, c < 128) :
    ∀ x ∈ snakecase s, x < 128 := by
  intro x hx
  rw [snakecase_eq_spec] at hx
  unfold snakecase_spec at hx
  cases s with
  | nil => simp at hx
  | cons a s =>
    simp only [List.map_cons, List.mem_cons, List.mem_flatMap, List.mem_map] at hx
    rcases hx with rfl | ⟨c, ⟨b, hb, rfl⟩, hx⟩
    · exact tolower_lt _ (spec_replace_separator_lt a (h a (List.mem_cons_self _ _)))
    · have hb2 := spec_replace_separator_lt b (h b (List.mem_cons_of_mem _ hb))
      unfold spec_split_hump at hx
      split at hx
      · simp only [List.mem_cons, List.mem_singleton, List.mem_nil_iff, or_false] at hx
        rcases hx with rfl | rfl
        · decide
        · exact tolower_lt _ hb2
      · rw [List.mem_singleton.1 hx]
        exact hb2

/-- On ASCII input, `constcase s` is `uppercase (snakecase s)`. -/
theorem constcase_ascii (s : List Nat) (h : ∀ c ∈ s, c < 128) :
    constcase s = uppercase (snakecase s) := by
  unfold constcase
  rw [py_upper_ascii _ (snakecase_ascii s h), uppercase_eq_map]

/-- On ASCII input, `constcase s` holds no ASCII lowercase letter. -/
theorem constcase_ascii_no_lower (s : List Nat) (h : ∀ c ∈ s, c < 128) :
    ∀ x ∈ constcase s, islower x = false := by
  intro x hx
  rw [constcase_ascii s h, uppercase_eq_map] at hx
  obtain ⟨c, _, rfl⟩ := List.mem_map.1 hx
  exact toupper_not_lower c

/-- C11 fails on the code for a non-ASCII letter: on the UTF-8 bytes of `é`, `constcase`
returns the bytes of `É`, while `uppercase (snakecase s)` returns the bytes of `é`;
`constcase "fooBar"` is `"FOO_BAR"`. -/
theorem constcase_unicode_upper :
    constcase [195, 169] = [195, 137] ∧
    uppercase (snakecase [195, 169]) = [195, 169] ∧
    constcase (ascii "fooBar") = ascii "FOO_BAR" :=
  ⟨by decide, by decide, by decide⟩

/-! ## Lengths -/

theorem flatMap_split_hump_length (l : List Nat) :
    (l.flatMap spec_split_hump).length = l.length + l.countP isupper := by
  induction l with
  | nil => rfl
  | cons c l ih =>
    rw [List.flatMap_cons, List.length_append, ih, List.countP_cons, List.length_cons]
    unfold spec_split_hump
    by_cases hc : isupper c = true
    · simp [hc]
      omega
    · simp [hc]
      omega

theorem isupper_replace_separator (c : Nat) :
    isupper (spec_replace_separator c) = isupper c := by
  unfold spec_replace_separator
  split
  · next h =>
    rcases h with rfl | rfl | rfl <;> decide
  · rfl

theorem countP_replace_separator (l : List Nat) :
    (l.map spec_replace_separator).countP isupper = l.countP isupper := by
  induction l with
  | nil => rfl
  | cons c l ih =>
    rw [List.map_cons, List.countP_cons, List.countP_cons, ih, isupper_replace_separator]

theorem snakecase_length (s : List Nat) :
    (snakecase s).length = s.length + (s.drop 1).countP isupper := by
  rw [snakecase_eq_spec]
  unfold snakecase_spec
  cases s with
  | nil => rfl
  | cons a s =>
    simp only [List.map_cons, List.length_cons, List.drop_succ_cons, List.drop_zero]
    rw [flatMap_split_hump_length, countP_replace_separator, List.length_map]
    omega

theorem snakecase_length_le (s : List Nat) : (snakecase s).length ≤ 2 * s.length := by
  rw [snakecase_length]
  have h1 := List.countP_le_length isupper (l := s.drop 1)
  have h2 : (s.drop 1).length ≤ s.length := by simp
  omega

theorem camelcase_scan_length_le (l : List Nat) (pending emitted : Bool) :
    (camelcase_scan l pending emitted).length ≤ l.length := by
  induction l generalizing pending emitted with
  | nil => simp [camelcase_scan]
  | cons c l ih =>
    rw [camelcase_scan]
    split
    · exact Nat.le_succ_of_le (ih _ _)
    · split
      · split
        · simpa using ih _ _
        · split
          · simpa using ih _ _
          · simpa using ih _ _
      · exact Nat.le_succ_of_le (ih _ _)

theorem camelcase_length_le (s : List Nat) : (camelcase s).length ≤ s.length := by
  rw [camelcase_eq_spec]
  exact camelcase_scan_length_le s false false

theorem capitalcase_length (s : List Nat) : (capitalcase s).length = s.length := by
  cases s with
  | nil => rfl
  | cons c rest => rw [capitalcase_cons]; rfl

theorem titlecase_length (s : List Nat) : (titlecase s).length = (snakecase s).length := by
  rw [titlecase_eq_scan]
  exact titlecase_scan_length _ _

theorem spec_space_after_length (out : List Nat) :
    (spec_space_after out).length ≤ out.length + 1 := by
  unfold spec_space_after
  split <;> simp

theorem sentence_step_length (out : List Nat) (c : Nat) :
    (sentence_step spec_space_after out c).length ≤ out.length + 2 := by
  have h := spec_space_after_length out
  unfold sentence_step
  split
  · omega
  · split
    · rw [List.length_append, List.length_singleton]
      omega
    · rw [List.length_append, List.length_singleton]
      omega

theorem sentence_foldl_length (l out : List Nat) :
    (l.foldl (sentence_step spec_space_after) out).length ≤ out.length + 2 * l.length := by
  induction l generalizing out with
  | nil => simp
  | cons c l ih =>
    have h1 := ih (sentence_step spec_space_after out c)
    have h2 := sentence_step_length out c
    rw [List.foldl_cons, List.length_cons]
    omega

theorem sentencecase_pass_length_le (s : List Nat) :
    (sentencecase_pass s s.length).length ≤ 2 * s.length := by
  rw [sentencecase_pass_eq]
  have h := sentence_foldl_length s []
  simpa [sentence_pass_spec] using h

theorem sentencecase_length_le_pass (s : List Nat) :
    (sentencecase s).length ≤ (sentencecase_pass s s.length).length := by
  rw [sentencecase_eq_pass, capitalcase_length]
  exact trimcase_length_le _

/-- C19 as the specification states it fails for `constcase`: on the two UTF-8 bytes of
U+0390 the result of `constcase` has six bytes, more than twice the input. -/
theorem constcase_expands :
    2 * [206, 144].length < (constcase [206, 144]).length := by decide

/-- C19, amended: for every input `s`, the result of each transform other than `constcase`
has at most `2 * |s|` bytes, and so has the result of `constcase` when `s` is ASCII; every
buffer a transform fills holds, before its terminator, no more bytes than were allocated
for it (`|s|` for `lowercase`, `uppercase`, `camelcase`, `capitalcase`, `alphanumcase` and
the first buffer of `snakecase`, `2 * |s|` for the second buffer of `snakecase` and both
buffers of `sentencecase`, `|snakecase s|` for `pathcase`, `spinalcase`, `dotcase` and
`titlecase`, twice that for `backslashcase`); the length of `snakecase s` is `|s|` plus the
number of uppercase letters after the first position. -/
theorem transform_length_bounds (s : List Nat) :
    ((lowercase s).length ≤ 2 * s.length ∧ (uppercase s).length ≤ 2 * s.length ∧
      (snakecase s).length ≤ 2 * s.length ∧ (camelcase s).length ≤ 2 * s.length ∧
      (capitalcase s).length ≤ 2 * s.length ∧ (pascalcase s).length ≤ 2 * s.length ∧
      (pathcase s).length ≤ 2 * s.length ∧ (backslashcase s).length ≤ 2 * s.length ∧
      (spinalcase s).length ≤ 2 * s.length ∧ (dotcase s).length ≤ 2 * s.length ∧
      (titlecase s).length ≤ 2 * s.length ∧ (trimcase s).length ≤ 2 * s.length ∧
      (alphanumcase s).length ≤ 2 * s.length ∧ (sentencecase s).length ≤ 2 * s.length) ∧
    ((∀ c ∈ s, c < 128) → (constcase s).length ≤ 2 * s.length) ∧
    ((lowercase s).length ≤ s.length ∧ (uppercase s).length ≤ s.length ∧
      (snakecase_pass1 s s.length).length ≤ s.length ∧
      (camelcase s).length ≤ s.length ∧ (capitalcase s).length ≤ s.length ∧
      (pascalcase s).length ≤ (camelcase s).length ∧
      (alphanumcase s).length ≤ s.length ∧
      (pathcase s).length ≤ (snakecase s).length ∧
      (backslashcase s).length ≤ 2 * (snakecase s).length ∧
      (spinalcase s).length ≤ (snakecase s).length ∧
      (dotcase s).length ≤ (snakecase s).length ∧
      (titlecase s).length ≤ (snakecase s).length ∧
      (sentencecase_pass s s.length).length ≤ 2 * s.length ∧
      (sentencecase s).length ≤ (sentencecase_pass s s.length).length) ∧
    (snakecase s).length = s.length + (s.drop 1).countP isupper := by
  have hlow : (lowercase s).length = s.length := by rw [lowercase_eq_map]; simp
  have hup : (uppercase s).length = s.length := by rw [uppercase_eq_map]; simp
  have hsn := snakecase_length_le s
  have hp1 : (snakecase_pass1 s s.length).length = s.length := by
    rw [snakecase_pass1_eq]; simp
  have hcam := camelcase_length_le s
  have hcap := capitalcase_length s
  have hpas : (pascalcase s).length = (camelcase s).length := by
    rw [pascalcase_eq, capitalcase_length]
  have hpath : (pathcase s).length = (snakecase s).length := by
    rw [pathcase_eq_map]; simp
  have hback : (backslashcase s).length = (snakecase s).length := by
    rw [backslashcase_eq_map]; simp
  have hspin : (spinalcase s).length = (snakecase s).length := by
    rw [spinalcase_eq_map]; simp
  have hdot : (dotcase s).length = (snakecase s).length := by
    rw [dotcase_eq_map]; simp
  have htit := titlecase_length s
  have htrim := trimcase_length_le s
  have halnum : (alphanumcase s).length ≤ s.length := by
    rw [alphanumcase_eq_filter]; exact List.length_filter_le _ _
  have hpass := sentencecase_pass_length_le s
  have hsen := sentencecase_length_le_pass s
  refine ⟨⟨?_, ?_, ?_, ?_, ?_, ?_, ?_, ?_, ?_, ?_, ?_, ?_, ?_, ?_⟩, ?_,
    ⟨?_, ?_, ?_, ?_, ?_, ?_, ?_, ?_, ?_, ?_, ?_, ?_, ?_, ?_⟩, snakecase_length s⟩
  any_goals omega
  intro hascii
  rw [constcase_ascii s hascii, uppercase_eq_map, List.length_map]
  exact hsn

theorem transform_length_bounds_witness :
    (constcase (ascii "fooBar")).length ≤ 2 * (ascii "fooBar").length :=
  (transform_length_bounds (ascii "fooBar")).2.1 (by decide)

/-! ## `camelcase` against `alphanumcase` -/

theorem tolower_toupper (c : Nat) : tolower (toupper c) = tolower c := by
  by_cases h : islower c = true
  · have hu : isupper (c - 32) = true := by
      unfold islower at h
      unfold isupper
      simp at h ⊢
      omega
    have hc : isupper c = false := by
      unfold islower at h
      unfold isupper
      simp at h ⊢
      omega
    simp only [toupper, h, if_true, tolower, hu, hc, Bool.false_eq_true, if_false]
    unfold islower at h
    simp at h
    omega
  · simp [toupper, h]

theorem separator_not_alnum (c : Nat) (h : spec_is_separator c = true) :
    isalnum c = false := by
  cases hc : isalnum c with
  | false => rfl
  | true =>
    rw [isalnum_not_separator c hc] at h
    exact absurd h (by decide)

theorem camelcase_scan_map_tolower (l : List Nat) (pending emitted : Bool) :
    (camelcase_scan l pending emitted).map tolower = (l.filter isalnum).map tolower := by
  induction l generalizing pending emitted with
  | nil => rfl
  | cons c l ih =>
    rw [camelcase_scan]
    split
    · next hsep =>
      rw [List.filter_cons_of_neg (by simp [separator_not_alnum c hsep])]
      exact ih _ _
    · split
      · next hal =>
        rw [List.filter_cons_of_pos hal, List.map_cons]
        split
        · rw [List.map_cons, ih, tolower_tolower]
        · split
          · rw [List.map_cons, ih, tolower_toupper]
          · rw [List.map_cons, ih]
      · next hal =>
        rw [List.filter_cons_of_neg hal]
        exact ih _ _

theorem camelcase_scan_head (l : List Nat) (pending : Bool) :
    camelcase_scan l pending false = [] ∨
      ∃ c rest, camelcase_scan l pending false = tolower c :: rest := by
  induction l generalizing pending with
  | nil => exact Or.inl rfl
  | cons c l ih =>
    rw [camelcase_scan]
    split
    · exact ih _
    · split
      · exact Or.inr ⟨c, camelcase_scan l pending true, by simp⟩
      · exact ih _

theorem camelcase_fix (c : Nat) (rest : List Nat)
    (h : ∀ x ∈ tolower c :: rest, isalnum x = true) :
    camelcase (tolower c :: rest) = tolower c :: rest := by
  have hc := h (tolower c) (List.mem_cons_self _ _)
  rw [camelcase_eq_spec, camelcase_spec, camelcase_scan,
    if_neg (by simp [isalnum_not_separator _ hc]), if_pos hc]
  simp only [Bool.not_false, if_true]
  rw [tolower_tolower, camelcase_scan_plain rest (fun x hx => h x (List.mem_cons_of_mem _ hx))]

theorem camelcase_camelcase (s : List Nat) : camelcase (camelcase s) = camelcase s := by
  have hal := camelcase_alnum s
  have hspec := camelcase_eq_spec s
  rw [camelcase_spec] at hspec
  rcases camelcase_scan_head s false with h | ⟨c, rest, h⟩
  · rw [hspec, h]
    rfl
  · rw [hspec, h] at hal
    rw [hspec, h]
    exact camelcase_fix c rest hal

/-- C21: for every input, `camelcase` only drops the non-alphanumeric characters and
changes letter case: `lowercase (camelcase s)` is `lowercase (alphanumcase s)`; the result
holds ASCII alphanumerics only, it has the length of `alphanumcase s`, and `camelcase` is
idempotent. -/
theorem camelcase_keeps_alphanumerics (s : List Nat) :
    lowercase (camelcase s) = lowercase (alphanumcase s) ∧
    (∀ c ∈ camelcase s, isalnum c = true) ∧
    (camelcase s).length = (alphanumcase s).length ∧
    camelcase (camelcase s) = camelcase s := by
  have h : (camelcase s).map tolower = (alphanumcase s).map tolower := by
    rw [camelcase_eq_spec, camelcase_spec, alphanumcase_eq_filter]
    exact camelcase_scan_map_tolower s false false
  refine ⟨?_, camelcase_alnum s, ?_, camelcase_camelcase s⟩
  · rw [lowercase_eq_map, lowercase_eq_map]
    exact h
  · have hlen := congrArg List.length h
    simpa using hlen

/-! ## `sentencecase` on its own output -/

theorem sentence_clean_tolower (c : Nat) (h : spec_is_separator c = false) :
    sentence_clean (tolower c) := by
  refine ⟨tolower_not_upper c, ?_⟩
  unfold spec_is_separator at h
  unfold tolower isupper
  simp at h
  split <;> simp_all
  omega

theorem sentence_clean_space_after (out : List Nat) (h : ∀ x ∈ out, sentence_clean x) :
    ∀ x ∈ spec_space_after out, sentence_clean x := by
  unfold spec_space_after
  split
  · exact h
  · intro x hx
    rcases List.mem_append.1 hx with hx | hx
    · exact h x hx
    · rw [List.mem_singleton.1 hx]
      exact ⟨by decide, by decide, by decide, by decide⟩

theorem sentence_clean_step (out : List Nat) (c : Nat) (h : ∀ x ∈ out, sentence_clean x) :
    ∀ x ∈ sentence_step spec_space_after out c, sentence_clean x := by
  unfold sentence_step
  split
  · exact sentence_clean_space_after out h
  · next hsep =>
    have hc : spec_is_separator c = false := by simpa using hsep
    split
    · intro x hx
      rcases List.mem_append.1 hx with hx | hx
      · exact sentence_clean_space_after out h x hx
      · rw [List.mem_singleton.1 hx]
        exact sentence_clean_tolower c hc
    · intro x hx
      rcases List.mem_append.1 hx with hx | hx
      · exact h x hx
      · rw [List.mem_singleton.1 hx]
        exact sentence_clean_tolower c hc

theorem sentence_pass_clean (s : List Nat) :
    ∀ x ∈ sentence_pass_spec spec_space_after s, sentence_clean x := by
  unfold sentence_pass_spec
  have h : ∀ (l out : List Nat), (∀ x ∈ out, sentence_clean x) →
      ∀ x ∈ l.foldl (sentence_step spec_space_after) out, sentence_clean x := by
    intro l
    induction l with
    | nil => intro out h; exact h
    | cons c l ih => intro out h; exact ih _ (sentence_clean_step out c h)
  exact h s [] (by simp)

theorem sentence_step_clean_byte (out : List Nat) (x : Nat) (hne : out ≠ [])
    (hx : sentence_clean x) (hlast : x = 32 → out.getLast? ≠ some 32) :
    sentence_step spec_space_after out x = out ++ [x] := by
  unfold sentence_step
  by_cases h32 : x = 32
  · subst h32
    rw [if_pos (by decide)]
    unfold spec_space_after
    rw [if_neg]
    rintro (h | h)
    · exact hne h
    · exact hlast rfl h
  · have hsep : spec_is_separator x = false := by
      unfold spec_is_separator
      simp [h32, hx.2.1, hx.2.2.1, hx.2.2.2]
    rw [if_neg (by simp [hsep]), if_neg (by simp [hx.1]), tolower_fix x hx.1]

theorem sentence_foldl_fix (r : List Nat) :
    ∀ out : List Nat, out ≠ [] → (∀ x ∈ r, sentence_clean x) →
      List.Chain' not_both_space (out ++ r) →
      r.foldl (sentence_step spec_space_after) out = out ++ r := by
  induction r with
  | nil => intro out _ _ _; simp
  | cons x r ih =>
    intro out hne hclean hchain
    have hx := hclean x (List.mem_cons_self _ _)
    have hlast : x = 32 → out.getLast? ≠ some 32 := by
      intro h32 hl
      have h1 := (List.chain'_split.1 hchain).1
      rw [List.chain'_append] at h1
      exact h1.2.2 32 hl x (by simp) ⟨rfl, h32⟩
    rw [List.foldl_cons, sentence_step_clean_byte out x hne hx hlast]
    have h := ih (out ++ [x]) (by simp) (fun y hy => hclean y (List.mem_cons_of_mem _ hy))
      (by simpa using hchain)
    simpa using h

theorem sentence_step_first (c : Nat) (hc : sentence_clean c) (h32 : c ≠ 32) :
    sentence_step spec_space_after [] (toupper c) = [c] := by
  have hsep : spec_is_separator (toupper c) = false := by
    obtain ⟨_, h45, h95, h46⟩ := hc
    unfold spec_is_separator toupper islower
    split <;> simp_all
    omega
  have hlow : tolower (toupper c) = c := by
    rw [tolower_toupper, tolower_fix c hc.1]
  unfold sentence_step
  rw [if_neg (by simp [hsep]), hlow]
  split <;> simp [spec_space_after]

theorem sentencecase_fix (b : List Nat) (hclean : ∀ x ∈ b, sentence_clean x)
    (hchain : List.Chain' not_both_space b)
    (hends : b.head?.map isspace ≠ some true ∧ b.getLast?.map isspace ≠ some true) :
    sentencecase (capitalcase b) = capitalcase b := by
  cases b with
  | nil => rfl
  | cons c r =>
    have hc := hclean c (List.mem_cons_self _ _)
    have h32 : c ≠ 32 := by
      intro h
      subst h
      exact hends.1 rfl
    have hpass : sentence_pass_spec spec_space_after (capitalcase (c :: r)) = c :: r := by
      rw [capitalcase_cons]
      unfold sentence_pass_spec
      rw [List.foldl_cons, sentence_step_first c hc h32]
      exact sentence_foldl_fix r [c] (by simp)
        (fun y hy => hclean y (List.mem_cons_of_mem _ hy)) hchain
    rw [sentencecase_eq_spec_after, hpass, trimcase_fix _ hends]

/-- C22: `sentencecase` is idempotent on every input. -/
theorem sentencecase_idempotent (s : List Nat) :
    sentencecase (sentencecase s) = sentencecase s := by
  rw [sentencecase_eq_spec_after s]
  apply sentencecase_fix
  · intro x hx
    exact sentence_pass_clean s x ((trimcase_within _).subset hx)
  · exact List.Chain'.infix (chain_sentence_pass s) (trimcase_within _)
  · exact trimcase_ends _
